import Mathlib

/-!
Shallow embedding of `src/agent/hierarchical/modules.py` from the
hierarchical-skill-acquisition repository.

Tensors of real numbers are modelled as (nested) `List ℝ`; the elementwise
and linear-algebra primitives used by the modules (`zipWith (+)`, dot
products, softmax, sigmoid, tanh) are defined below, faithful to the torch
operations the source calls.  `VisualEncoder` additionally works on a flat
`Tensor` (shape + flat data) because its `forward` begins with a
`view(batch*time, 3, 84, 84)` reshape whose semantics depend only on the
total element count.
-/

namespace HSA

/-- Pointwise addition of two real vectors (`torch` elementwise `+`;
`List.zipWith` truncates to the shorter operand, which never happens on
shape-correct inputs). -/
def vecAdd (a b : List ℝ) : List ℝ := List.zipWith (· + ·) a b

/-- Pointwise (Hadamard) product of two real vectors (`torch` elementwise `*`). -/
def vecMul (a b : List ℝ) : List ℝ := List.zipWith (· * ·) a b

/-- Dot product of two real vectors. -/
def dot (a b : List ℝ) : ℝ := (List.zipWith (· * ·) a b).sum

/-- Matrix–vector product: each row of `W` dotted with `x` (`nn.Linear` core). -/
def matVec (W : List (List ℝ)) (x : List ℝ) : List ℝ := W.map (fun r => dot r x)

/-- Torch `nn.Linear`: `W x + b`. -/
def linearF (W : List (List ℝ)) (b x : List ℝ) : List ℝ := vecAdd (matVec W x) b

/-- Torch `F.relu` on a vector: elementwise `max 0`. -/
noncomputable def reluVec (x : List ℝ) : List ℝ := x.map (fun v => max 0 v)

/-- Torch `F.softmax(·, dim=-1)` on one row: exponentiate and normalize. -/
noncomputable def softmax (x : List ℝ) : List ℝ :=
  x.map (fun v => Real.exp v / (x.map Real.exp).sum)

/-- Logistic sigmoid, the gate nonlinearity of `nn.LSTM`. -/
noncomputable def sigmoid (x : ℝ) : ℝ := 1 / (1 + Real.exp (-x))

/-! ### InstructionEncoder

`nn.EmbeddingBag(vocabulary_size, 128, mode="sum")` applied to a batch of
token-id rows with `offsets=None`: each row is one bag whose token
embeddings are looked up and summed.  An out-of-range token id is a lookup
failure (modelled with `Option`); an empty bag sums to the zero vector. -/

/-- Look up the embedding rows of a token sequence in table `E`
(`none` on an out-of-range id, as torch raises an index error). -/
def embedSeq (E : List (List ℝ)) : List Nat → Option (List (List ℝ))
  | [] => some []
  | t :: ts =>
    match E.get? t, embedSeq E ts with
    | some e, some vs => some (e :: vs)
    | _, _ => none

/-- Sum a list of width-128 embedding vectors, starting from the zero vector
(the value of an empty bag in `EmbeddingBag`'s `"sum"` mode). -/
def vecSumList (vs : List (List ℝ)) : List ℝ :=
  vs.foldr vecAdd (List.replicate 128 0)

/-- One bag of `EmbeddingBag(mode="sum")`: sum of the embeddings of all
tokens of the row. -/
def embeddingBagSum (E : List (List ℝ)) (tokens : List Nat) : Option (List ℝ) :=
  (embedSeq E tokens).map vecSumList

/-- The `EmbeddingBag` over a batch: one summed bag per row. -/
def embeddingBagBatch (E : List (List ℝ)) : List (List Nat) → Option (List (List ℝ))
  | [] => some []
  | r :: rs =>
    match embeddingBagSum E r, embeddingBagBatch E rs with
    | some v, some out => some (v :: out)
    | _, _ => none

/-- The warning text `InstructionEncoder.forward` emits when the
(unimplemented) recurrent mode was selected. -/
def rnnWarning : String :=
  "The RNN-encoding is not yet implemented. Switch to the Bag of Words."

/-- The `InstructionEncoder.__init__` state: the `bow` flag, the vocabulary size
and the learned `EmbeddingBag` table (`vocabulary_size × 128`). -/
structure InstructionEncoder where
  vocabulary_size : Nat
  bow : Bool
  embeddings : List (List ℝ)

/-- Method `InstructionEncoder.forward`: warns when `bow` is false, then returns
`self.embeddings(instruction, None)`.  The warnings emitted during the call
are returned alongside the result (`warnings.warn` output is observable
caller-side). -/
def InstructionEncoder.forward (m : InstructionEncoder)
    (instruction : List (List Nat)) : List String × Option (List (List ℝ)) :=
  ((if m.bow then [] else [rnnWarning]), embeddingBagBatch m.embeddings instruction)

/-! ### Fusion -/

/-- Method `Fusion.forward`: broadcast the per-batch instruction encoding across the
time axis (`unsqueeze(1).expand`) and concatenate it to each per-timestep
visual encoding along the feature axis (`torch.cat(..., -1)`). -/
def Fusion.forward (visual_encoding : List (List (List ℝ)))
    (instruction_encoding : List (List ℝ)) : List (List (List ℝ)) :=
  (visual_encoding.zip instruction_encoding).map
    (fun bi => bi.1.map (fun v => v ++ bi.2))

/-! ### TimeEncoder -/

/-- Learned parameters of the single-layer `nn.LSTM(input_size=384,
hidden_size=256, batch_first=True)`: stacked gate weights in torch's
`i, f, g, o` order, so each weight matrix has `4*256 = 1024` rows. -/
structure LSTMParams where
  weight_ih : List (List ℝ)
  weight_hh : List (List ℝ)
  bias_ih : List ℝ
  bias_hh : List ℝ

/-- The stacked pre-activation gate vector
`W_ih x + b_ih + W_hh h + b_hh` of one LSTM step. -/
def lstmGates (p : LSTMParams) (x h : List ℝ) : List ℝ :=
  vecAdd (vecAdd (matVec p.weight_ih x) p.bias_ih)
    (vecAdd (matVec p.weight_hh h) p.bias_hh)

/-- One step of torch's LSTM cell on state `(h, c)`:
`i = σ(g₀₋₂₅₅)`, `f = σ(g₂₅₆₋₅₁₁)`, `g = tanh(g₅₁₂₋₇₆₇)`, `o = σ(g₇₆₈₋₁₀₂₃)`,
`c' = f ⊙ c + i ⊙ g`, `h' = o ⊙ tanh c'`. -/
noncomputable def lstmCell (p : LSTMParams) (x : List ℝ) (hc : List ℝ × List ℝ) :
    List ℝ × List ℝ :=
  let g := lstmGates p x hc.1
  let i := (g.take 256).map sigmoid
  let f := ((g.drop 256).take 256).map sigmoid
  let gg := ((g.drop 512).take 256).map Real.tanh
  let o := ((g.drop 768).take 256).map sigmoid
  let c := vecAdd (vecMul f hc.2) (vecMul i gg)
  (vecMul o (c.map Real.tanh), c)

/-- Run the LSTM across a timestep sequence from initial state `hc`,
returning the final `(h, c)`. -/
noncomputable def lstmRun (p : LSTMParams) (xs : List (List ℝ))
    (hc : List ℝ × List ℝ) : List ℝ × List ℝ :=
  xs.foldl (fun s x => lstmCell p x s) hc

/-- The `TimeEncoder.__init__` state: `hidden_size = 256` is a fixed constant
(set unconditionally in the constructor), so only the LSTM parameters vary. -/
structure TimeEncoder where
  lstm : LSTMParams

/-- The constant `self.hidden_size` of `TimeEncoder`. -/
def TimeEncoder.hidden_size : Nat := 256

/-- The zero initial hidden/cell state built inside every
`TimeEncoder.forward` call (`torch.zeros(batch_size, self.hidden_size)`). -/
def zeroState : List ℝ × List ℝ :=
  (List.replicate 256 0, List.replicate 256 0)

/-- Method `TimeEncoder.forward`: run the LSTM over the fused sequence from the
freshly-zeroed state and return the final hidden state `hidden[0].squeeze(0)`,
one width-256 vector per batch element. -/
noncomputable def TimeEncoder.forward (m : TimeEncoder)
    (fused : List (List (List ℝ))) : List (List ℝ) :=
  fused.map (fun seqb => (lstmRun m.lstm seqb zeroState).1)

/-- A method call on the module object: returns the output together with the
module as it is after the call (`forward` mutates nothing). -/
noncomputable def TimeEncoder.call (m : TimeEncoder)
    (fused : List (List (List ℝ))) : List (List ℝ) × TimeEncoder :=
  (m.forward fused, m)

/-! ### VisualEncoder

`VisualEncoder.forward` starts with `img.view(batch_size * num_timesteps,
3, 84, 84)`; a torch `view` succeeds exactly when the total element count
matches the target shape's product, irrespective of how the elements were
grouped before.  Inputs are therefore modelled as a flat `Tensor` (shape
list plus row-major data), and each claimed frame of 3·84·84 = 21168
elements is regrouped into channels/rows before the convolution stack. -/

/-- A torch tensor: its size list and its row-major flat data.  A tensor
produced by torch always satisfies `data.length = shape.prod`. -/
structure Tensor where
  shape : List Nat
  data : List ℝ

/-- Torch `nn.Conv2d` (no padding) on one multi-channel image: `weight` is
`out_channels × in_channels × kH × kW`, `bias` one entry per out channel,
output spatial size `(H - kH)/stride + 1 × (W - kW)/stride + 1`.  Entry
`(o, i, j)` is the bias plus the dot product of kernel `o` with the input
patch at `(i*stride, j*stride)`. -/
def conv2d (weight : List (List (List (List ℝ)))) (bias : List ℝ)
    (stride : Nat) (input : List (List (List ℝ))) : List (List (List ℝ)) :=
  let kh := ((weight.headD []).headD []).length
  let kw := (((weight.headD []).headD []).headD []).length
  let oh := ((input.headD []).length - kh) / stride + 1
  let ow := (((input.headD []).headD []).length - kw) / stride + 1
  (weight.zip bias).map (fun wb =>
    (List.range oh).map (fun i =>
      (List.range ow).map (fun j =>
        wb.2 + ((wb.1.zip input).map (fun ci =>
          ((ci.1.zip (ci.2.drop (i * stride))).map
            (fun rr => dot rr.1 (rr.2.drop (j * stride)))).sum)).sum)))

/-- Torch `F.relu` on a channels × rows × cols feature map. -/
noncomputable def relu3 (x : List (List (List ℝ))) : List (List (List ℝ)) :=
  x.map (fun c => c.map reluVec)

/-- Row-major flattening of a channels × rows × cols feature map
(the `view(batch*time, -1)` step). -/
def flatten3 (x : List (List (List ℝ))) : List ℝ :=
  (x.map List.flatten).flatten

/-- Regroup one flat frame of 21168 elements into the `(3, 84, 84)` channel
structure the `view` assigns to it. -/
def unflattenFrame (d : List ℝ) : List (List (List ℝ)) :=
  (List.range 3).map (fun c =>
    (List.range 84).map (fun i => (d.drop ((c * 84 + i) * 84)).take 84))

/-- The `VisualEncoder.__init__` state: the three convolutions
(3→32 k8 s4, 32→64 k4 s2, 64→64 k3 s1) and the `nn.Linear(64*7*7, 256)`. -/
structure VEParams where
  conv1w : List (List (List (List ℝ)))
  conv1b : List ℝ
  conv2w : List (List (List (List ℝ)))
  conv2b : List ℝ
  conv3w : List (List (List (List ℝ)))
  conv3b : List ℝ
  linW : List (List ℝ)
  linb : List ℝ

/-- The per-frame pipeline of `VisualEncoder.forward`:
relu∘conv1, relu∘conv2, relu∘conv3, flatten, relu∘linear. -/
noncomputable def encodeFrame (p : VEParams) (d : List ℝ) : List ℝ :=
  let e1 := relu3 (conv2d p.conv1w p.conv1b 4 (unflattenFrame d))
  let e2 := relu3 (conv2d p.conv2w p.conv2b 2 e1)
  let e3 := relu3 (conv2d p.conv3w p.conv3b 1 e2)
  reluVec (linearF p.linW p.linb (flatten3 e3))

/-- Method `VisualEncoder.forward`: read `batch_size` and `num_timesteps` from the
two leading dimensions (an index error, hence `none`, if there are fewer
than two), `view` the data as `(B*T, 3, 84, 84)` (a shape-mismatch error,
hence `none`, unless the element count is exactly `B*T*21168`), push each
frame through the convolution stack, and regroup as `(B, T, 256)`. -/
noncomputable def VisualEncoder.forward (p : VEParams) (img : Tensor) :
    Option Tensor :=
  match img.shape with
  | B :: T :: _ =>
    if img.data.length = B * T * (3 * 84 * 84) then
      some ⟨[B, T, 256],
        ((List.range (B * T)).map (fun f =>
          encodeFrame p ((img.data.drop (f * (3 * 84 * 84))).take (3 * 84 * 84)))).flatten⟩
    else none
  | _ => none

/-! ### Policy heads -/

/-- Module `SwitchPolicy`: one `nn.Linear(256, 2)`. -/
structure SwitchPolicy where
  linW : List (List ℝ)
  linb : List ℝ

/-- Method `SwitchPolicy.forward`: softmax of the linear projection, per batch row. -/
noncomputable def SwitchPolicy.forward (m : SwitchPolicy)
    (time_encoded : List (List ℝ)) : List (List ℝ) :=
  time_encoded.map (fun row => softmax (linearF m.linW m.linb row))

/-- Module `InstructionPolicy`: two independent linear heads
`nn.Linear(256, num_instructions)` and `nn.Linear(256, num_objects)`. -/
structure InstructionPolicy where
  num_instructions : Nat
  num_objects : Nat
  instructionW : List (List ℝ)
  instructionb : List ℝ
  objectW : List (List ℝ)
  objectb : List ℝ

/-- Method `InstructionPolicy.forward`: two separately softmax-normalized
distributions from the two linear projections of the same input. -/
noncomputable def InstructionPolicy.forward (m : InstructionPolicy)
    (time_encoded : List (List ℝ)) : List (List ℝ) × List (List ℝ) :=
  (time_encoded.map (fun row => softmax (linearF m.instructionW m.instructionb row)),
   time_encoded.map (fun row => softmax (linearF m.objectW m.objectb row)))

/-- Module `AugmentedPolicy`: one `nn.Linear(256, num_actions)`. -/
structure AugmentedPolicy where
  num_actions : Nat
  linW : List (List ℝ)
  linb : List ℝ

/-- Method `AugmentedPolicy.forward`: softmax of the linear projection. -/
noncomputable def AugmentedPolicy.forward (m : AugmentedPolicy)
    (time_encoded : List (List ℝ)) : List (List ℝ) :=
  time_encoded.map (fun row => softmax (linearF m.linW m.linb row))

/-- Well-formedness of the learned LSTM parameters: the stacked gate
matrices and biases all have `4*256 = 1024` rows, as `nn.LSTM(384, 256)`
allocates them. -/
def LSTMParams.WF (p : LSTMParams) : Prop :=
  p.weight_ih.length = 1024 ∧ p.weight_hh.length = 1024 ∧
    p.bias_ih.length = 1024 ∧ p.bias_hh.length = 1024

/-- Well-formedness of the learned `VisualEncoder` parameters, exactly as
`VisualEncoder.__init__` allocates them: conv1 `32×3×8×8` with 32 biases,
conv2 `64×32×4×4` with 64 biases, conv3 `64×64×3×3` with 64 biases, and the
linear layer `256×3136` with 256 biases. -/
def VEParams.WF (p : VEParams) : Prop :=
  p.conv1w.length = 32 ∧
    (∀ oc ∈ p.conv1w, oc.length = 3 ∧ ∀ ic ∈ oc, ic.length = 8 ∧
      ∀ r ∈ ic, r.length = 8) ∧
    p.conv1b.length = 32 ∧
    p.conv2w.length = 64 ∧
    (∀ oc ∈ p.conv2w, oc.length = 32 ∧ ∀ ic ∈ oc, ic.length = 4 ∧
      ∀ r ∈ ic, r.length = 4) ∧
    p.conv2b.length = 64 ∧
    p.conv3w.length = 64 ∧
    (∀ oc ∈ p.conv3w, oc.length = 64 ∧ ∀ ic ∈ oc, ic.length = 3 ∧
      ∀ r ∈ ic, r.length = 3) ∧
    p.conv3b.length = 64 ∧
    p.linW.length = 256 ∧ (∀ r ∈ p.linW, r.length = 3136) ∧
    p.linb.length = 256

/-! ### Concrete instances (used to evaluate the theorems on real inputs) -/

/-- A concrete 2 × 128 embedding table. -/
def E0 : List (List ℝ) := [List.replicate 128 0, List.replicate 128 1]

/-- A bag-of-words `InstructionEncoder` over `E0`. -/
def enc0 : InstructionEncoder := ⟨2, true, E0⟩

/-- An `InstructionEncoder` over `E0` with the recurrent mode selected. -/
def encR : InstructionEncoder := ⟨2, false, E0⟩

/-- Concrete zero LSTM parameters of the source's dimensions. -/
def lstm0 : LSTMParams :=
  ⟨List.replicate 1024 (List.replicate 384 0),
   List.replicate 1024 (List.replicate 256 0),
   List.replicate 1024 0, List.replicate 1024 0⟩

/-- A concrete `TimeEncoder`. -/
def te0 : TimeEncoder := ⟨lstm0⟩

/-- A concrete fused input of shape `(1, 1, 384)`. -/
def fused0 : List (List (List ℝ)) := [[List.replicate 384 0]]

/-- A concrete `SwitchPolicy` with zero weights. -/
def sp0 : SwitchPolicy :=
  ⟨List.replicate 2 (List.replicate 256 0), List.replicate 2 0⟩

/-- A concrete `InstructionPolicy` with `num_instructions = num_objects = 1`. -/
def ip0 : InstructionPolicy :=
  ⟨1, 1, [List.replicate 256 0], [0], [List.replicate 256 0], [0]⟩

/-- A concrete `AugmentedPolicy` with `num_actions = 1`. -/
def ap0 : AugmentedPolicy := ⟨1, [List.replicate 256 0], [0]⟩

/-- A concrete summary-vector batch of shape `(1, 256)`. -/
def x0 : List (List ℝ) := [List.replicate 256 0]

/-- A concrete visual-encoding batch of shape `(1, 1, 256)`. -/
def visual0 : List (List (List ℝ)) := [[List.replicate 256 0]]

/-- A concrete instruction-encoding batch of shape `(1, 128)`. -/
def instr0 : List (List ℝ) := [List.replicate 128 0]

/-- Concrete zero `VisualEncoder` parameters of the source's dimensions. -/
def pVE0 : VEParams :=
  ⟨List.replicate 32 (List.replicate 3 (List.replicate 8 (List.replicate 8 0))),
   List.replicate 32 0,
   List.replicate 64 (List.replicate 32 (List.replicate 4 (List.replicate 4 0))),
   List.replicate 64 0,
   List.replicate 64 (List.replicate 64 (List.replicate 3 (List.replicate 3 0))),
   List.replicate 64 0,
   List.replicate 256 (List.replicate 3136 0),
   List.replicate 256 0⟩

/-- A well-formed image tensor of shape `(1, 1, 3, 84, 84)`. -/
def img0 : Tensor := ⟨[1, 1, 3, 84, 84], List.replicate (3 * 84 * 84) 0⟩

/-- A tensor of shape `(1, 1, 12, 42, 42)`: its per-frame dimensions differ
from `(3, 84, 84)` but its per-frame element count is also `21168`. -/
def imgBad : Tensor := ⟨[1, 1, 12, 42, 42], List.replicate (12 * 42 * 42) 0⟩

/-! ## Theorems -/

/-! ### List indexing helpers -/

theorem getD_map_of_lt {α β : Type} (f : α → β) (l : List α) (b : Nat)
    (hb : b < l.length) (d : α) (d' : β) :
    (l.map f).getD b d' = f (l.getD b d) := by
  induction l generalizing b with
  | nil => simp at hb
  | cons a t ih =>
    cases b with
    | zero => simp
    | succ n => simpa using ih n (by simpa using hb)

theorem getD_zip_of_lt {α β : Type} (l₁ : List α) (l₂ : List β) (b : Nat)
    (h₁ : b < l₁.length) (h₂ : b < l₂.length) (d₁ : α) (d₂ : β) :
    (l₁.zip l₂).getD b (d₁, d₂) = (l₁.getD b d₁, l₂.getD b d₂) := by
  induction l₁ generalizing l₂ b with
  | nil => simp at h₁
  | cons a t ih =>
    cases l₂ with
    | nil => simp at h₂
    | cons c u =>
      cases b with
      | zero => simp
      | succ n =>
        simpa using ih u n (by simpa using h₁) (by simpa using h₂)

theorem getD_mem_of_lt {α : Type} (l : List α) (b : Nat) (hb : b < l.length)
    (d : α) : l.getD b d ∈ l := by
  induction l generalizing b with
  | nil => simp at hb
  | cons a t ih =>
    cases b with
    | zero => simp
    | succ n => simpa using Or.inr (ih n (by simpa using hb))

/-! ### Basic length lemmas -/

theorem length_vecAdd (a b : List ℝ) :
    (vecAdd a b).length = min a.length b.length := by
  simp [vecAdd]

theorem length_vecMul (a b : List ℝ) :
    (vecMul a b).length = min a.length b.length := by
  simp [vecMul]

theorem length_matVec (W : List (List ℝ)) (x : List ℝ) :
    (matVec W x).length = W.length := by
  simp [matVec]

theorem length_linearF (W : List (List ℝ)) (b x : List ℝ) :
    (linearF W b x).length = min W.length b.length := by
  simp [linearF, length_vecAdd, length_matVec]

theorem length_softmax (x : List ℝ) : (softmax x).length = x.length := by
  simp [softmax]

/-! ### Softmax facts -/

theorem softmax_nonneg (x : List ℝ) : ∀ v ∈ softmax x, 0 ≤ v := by
  intro v hv
  simp only [softmax, List.mem_map] at hv
  obtain ⟨a, ha, rfl⟩ := hv
  have hpos : 0 < (x.map Real.exp).sum := by
    apply List.sum_pos
    · intro e he
      simp only [List.mem_map] at he
      obtain ⟨c, _, rfl⟩ := he
      exact Real.exp_pos c
    · exact fun h => (List.not_mem_nil a) (by simpa [h] using List.mem_map_of_mem Real.exp ha)
  positivity

theorem softmax_sum (x : List ℝ) (hx : x ≠ []) : (softmax x).sum = 1 := by
  have hpos : 0 < (x.map Real.exp).sum := by
    apply List.sum_pos
    · intro e he
      simp only [List.mem_map] at he
      obtain ⟨c, _, rfl⟩ := he
      exact Real.exp_pos c
    · simpa using hx
  have hsum : (softmax x).sum = (x.map Real.exp).sum / (x.map Real.exp).sum := by
    simp only [softmax, div_eq_mul_inv, ← List.sum_map_mul_right]
  rw [hsum, div_self (ne_of_gt hpos)]

/-- All rows produced by one softmax head (a linear projection with `n`
output rows and an `n`-entry bias, followed by `softmax`) have length `n`,
sum `1` and no negative entry. -/
theorem softmax_head_props (W : List (List ℝ)) (bv : List ℝ)
    (x : List (List ℝ)) (n : Nat) (hW : W.length = n) (hb : bv.length = n)
    (hn : 1 ≤ n) :
    ∀ row ∈ x.map (fun r => softmax (linearF W bv r)),
      row.length = n ∧ row.sum = 1 ∧ ∀ v ∈ row, 0 ≤ v := by
  intro row hrow
  simp only [List.mem_map] at hrow
  obtain ⟨r, _, rfl⟩ := hrow
  have hlen : (linearF W bv r).length = n := by
    rw [length_linearF, hW, hb, min_self]
  have hne : linearF W bv r ≠ [] := by
    intro hnil
    rw [hnil] at hlen
    simp at hlen
    omega
  exact ⟨by rw [length_softmax, hlen], softmax_sum _ hne, softmax_nonneg _⟩

/-! ### LSTM shape lemmas -/

theorem lstmGates_length (p : LSTMParams) (hp : p.WF) (x h : List ℝ) :
    (lstmGates p x h).length = 1024 := by
  obtain ⟨h1, h2, h3, h4⟩ := hp
  simp [lstmGates, length_vecAdd, length_matVec, h1, h2, h3, h4]

theorem lstmCell_length (p : LSTMParams) (hp : p.WF) (x : List ℝ)
    (hc : List ℝ × List ℝ) (hcc : hc.2.length = 256) :
    (lstmCell p x hc).1.length = 256 ∧ (lstmCell p x hc).2.length = 256 := by
  have hg := lstmGates_length p hp x hc.1
  constructor <;>
    simp [lstmCell, length_vecMul, length_vecAdd, hg, hcc]

theorem lstmRun_length (p : LSTMParams) (hp : p.WF) (xs : List (List ℝ))
    (hc : List ℝ × List ℝ) (hch : hc.1.length = 256) (hcc : hc.2.length = 256) :
    (lstmRun p xs hc).1.length = 256 ∧ (lstmRun p xs hc).2.length = 256 := by
  induction xs generalizing hc with
  | nil => exact ⟨hch, hcc⟩
  | cons x ts ih =>
    have hcell := lstmCell_length p hp x hc hcc
    exact ih (lstmCell p x hc) hcell.1 hcell.2

/-! ### EmbeddingBag lemmas -/

theorem get?_eq_some_getD {α : Type} (l : List α) (n : Nat) (h : n < l.length)
    (d : α) : l.get? n = some (l.getD n d) := by
  induction l generalizing n with
  | nil => simp at h
  | cons a t ih =>
    cases n with
    | zero => simp
    | succ m => simpa using ih m (by simpa using h)

theorem lt_length_of_get?_eq_some {α : Type} (l : List α) (n : Nat) (a : α)
    (h : l.get? n = some a) : n < l.length := by
  by_contra hn
  rw [List.get?_eq_none.mpr (by omega)] at h
  exact Option.noConfusion h

theorem mem_of_get?_eq_some {α : Type} (l : List α) (n : Nat) (a : α)
    (h : l.get? n = some a) : a ∈ l := by
  induction l generalizing n with
  | nil => simp at h
  | cons x t ih =>
    cases n with
    | zero =>
      simp only [List.get?] at h
      simp [Option.some_inj.mp h]
    | succ m => simpa using Or.inr (ih m (by simpa using h))

theorem embedSeq_eq_some_of_valid (E : List (List ℝ)) (l : List Nat)
    (h : ∀ t ∈ l, t < E.length) :
    embedSeq E l = some (l.map (fun t => E.getD t [])) := by
  induction l with
  | nil => rfl
  | cons t ts ih =>
    have ht : t < E.length := h t (by simp)
    have hget : E.get? t = some (E.getD t []) := get?_eq_some_getD E t ht []
    simp only [embedSeq, List.map_cons]
    rw [hget, ih (fun a ha => h a (by simp [ha]))]

theorem embedSeq_eq_none_of_invalid (E : List (List ℝ)) (l : List Nat)
    (t : Nat) (ht : t ∈ l) (hge : E.length ≤ t) : embedSeq E l = none := by
  induction l with
  | nil => simp at ht
  | cons a ts ih =>
    rcases List.mem_cons.mp ht with h | hmem
    · have hnone : E.get? a = none := List.get?_eq_none.mpr (h ▸ hge)
      simp only [embedSeq]
      rw [hnone]
    · simp only [embedSeq]
      rw [ih hmem]
      cases E.get? a <;> rfl

theorem vecAdd_comm (a b : List ℝ) : vecAdd a b = vecAdd b a := by
  induction a generalizing b with
  | nil => cases b <;> simp [vecAdd]
  | cons x xs ih =>
    cases b with
    | nil => simp [vecAdd]
    | cons y ys =>
      simp only [vecAdd, List.zipWith_cons_cons]
      exact congrArg₂ List.cons (add_comm x y) (ih ys)

theorem vecAdd_left_comm (a b c : List ℝ) :
    vecAdd a (vecAdd b c) = vecAdd b (vecAdd a c) := by
  induction a generalizing b c with
  | nil => cases b <;> cases c <;> simp [vecAdd]
  | cons x xs ih =>
    cases b with
    | nil => simp [vecAdd]
    | cons y ys =>
      cases c with
      | nil => simp [vecAdd]
      | cons z zs =>
        simp only [vecAdd, List.zipWith_cons_cons]
        exact congrArg₂ List.cons (add_left_comm x y z) (ih ys zs)

theorem vecSumList_cons (v : List ℝ) (vs : List (List ℝ)) :
    vecSumList (v :: vs) = vecAdd v (vecSumList vs) := rfl

theorem vecSumList_perm (vs₁ vs₂ : List (List ℝ)) (h : vs₁.Perm vs₂) :
    vecSumList vs₁ = vecSumList vs₂ := by
  induction h with
  | nil => rfl
  | cons x _ ih => rw [vecSumList_cons, vecSumList_cons, ih]
  | swap x y l =>
    rw [vecSumList_cons, vecSumList_cons, vecSumList_cons, vecSumList_cons]
    exact vecAdd_left_comm y x (vecSumList l)
  | trans _ _ ih1 ih2 => exact ih1.trans ih2

theorem vecSumList_length (vs : List (List ℝ))
    (h : ∀ v ∈ vs, v.length = 128) : (vecSumList vs).length = 128 := by
  induction vs with
  | nil => simp [vecSumList]
  | cons v t ih =>
    rw [vecSumList_cons, length_vecAdd, h v (by simp),
      ih (fun w hw => h w (by simp [hw]))]
    simp

theorem vecAdd_self_smul (c : ℝ) (e : List ℝ) :
    vecAdd e (e.map (fun a => c * a)) = e.map (fun a => (c + 1) * a) := by
  induction e with
  | nil => rfl
  | cons a t ih =>
    simp only [List.map_cons, vecAdd, List.zipWith_cons_cons] at ih ⊢
    exact congrArg₂ List.cons (by ring) ih

theorem embedSeq_replicate (E : List (List ℝ)) (t : Nat) (e : List ℝ)
    (hget : E.get? t = some e) (k : Nat) :
    embedSeq E (List.replicate k t) = some (List.replicate k e) := by
  induction k with
  | zero => rfl
  | succ k ih =>
    simp only [List.replicate_succ, embedSeq]
    rw [hget, ih]

theorem vecSumList_replicate (e : List ℝ) (he : e.length = 128) (k : Nat) :
    vecSumList (List.replicate k e) = e.map (fun a => (k : ℝ) * a) := by
  induction k with
  | zero =>
    show List.replicate 128 0 = _
    symm
    rw [List.eq_replicate_iff]
    refine ⟨by simp [he], ?_⟩
    intro b hb
    simp only [List.mem_map] at hb
    obtain ⟨a, _, rfl⟩ := hb
    simp
  | succ k ih =>
    rw [List.replicate_succ, vecSumList_cons, ih, vecAdd_self_smul]
    simp [Nat.cast_succ]

theorem embeddingBagBatch_eq_some (E : List (List ℝ))
    (instruction : List (List Nat))
    (hvalid : ∀ row ∈ instruction, ∀ t ∈ row, t < E.length) :
    embeddingBagBatch E instruction =
      some (instruction.map
        (fun row => vecSumList (row.map (fun t => E.getD t [])))) := by
  induction instruction with
  | nil => rfl
  | cons r rs ih =>
    have h1 := embedSeq_eq_some_of_valid E r (hvalid r (by simp))
    simp [embeddingBagBatch, embeddingBagSum, h1,
      ih (fun row hrow => hvalid row (by simp [hrow]))]

/-! ### Claim theorems -/

/-- C1: for a fused sequence of shape `(B, T, 384)` with `B, T ≥ 1`,
`TimeEncoder.forward` runs the single-layer LSTM (hidden and cell state
each of width 256, both the zero state `zeroState` at the start of the
call) across the time axis and returns the final hidden state, a batch of
`B` vectors of width 256. -/
theorem timeEncoder_forward_shape (m : TimeEncoder)
    (fused : List (List (List ℝ))) (B T : Nat) (hp : m.lstm.WF)
    (hB : fused.length = B) (_hB1 : 1 ≤ B) (_hT1 : 1 ≤ T)
    (_hT : ∀ s ∈ fused, s.length = T ∧ ∀ v ∈ s, v.length = 384) :
    (m.forward fused).length = B ∧ (∀ r ∈ m.forward fused, r.length = 256) ∧
      m.forward fused = fused.map (fun s => (lstmRun m.lstm s zeroState).1) := by
  refine ⟨by simp [TimeEncoder.forward, hB], ?_, rfl⟩
  intro r hr
  simp only [TimeEncoder.forward, List.mem_map] at hr
  obtain ⟨s, _, rfl⟩ := hr
  exact (lstmRun_length m.lstm hp s zeroState (List.length_replicate 256 0)
    (List.length_replicate 256 0)).1

set_option maxRecDepth 8000 in
/-- Witness for C1 at the concrete module `te0` and input `fused0` of shape
`(1, 1, 384)`. -/
theorem timeEncoder_forward_shape_witness :
    (te0.forward fused0).length = 1 ∧ (∀ r ∈ te0.forward fused0, r.length = 256) ∧
      te0.forward fused0 = fused0.map (fun s => (lstmRun te0.lstm s zeroState).1) :=
  timeEncoder_forward_shape te0 fused0 1 1
    ⟨List.length_replicate 1024 _, List.length_replicate 1024 _,
      List.length_replicate 1024 _, List.length_replicate 1024 _⟩
    rfl (by omega) (by omega)
    (by
      intro s hs
      simp only [fused0, List.mem_singleton] at hs
      subst hs
      refine ⟨rfl, ?_⟩
      intro v hv
      simp only [List.mem_singleton] at hv
      subst hv
      exact List.length_replicate 384 _)

/-- C6: in bag-of-words mode the instruction embedding of a token row is the
sum of the learned embedding vectors of its tokens: it is invariant under
any permutation of the row (also at the level of
`InstructionEncoder.forward`), and a token appearing `k` times contributes
its embedding vector `k` times (`k` scalar-multiplies the embedding). -/
theorem instructionEncoder_bag_of_words (m : InstructionEncoder)
    (hE : ∀ row ∈ m.embeddings, row.length = 128) (l₁ l₂ : List Nat)
    (hperm : l₁.Perm l₂) :
    embeddingBagSum m.embeddings l₁ = embeddingBagSum m.embeddings l₂ ∧
      (m.forward [l₁]).2 = (m.forward [l₂]).2 ∧
      ∀ t e k, m.embeddings.get? t = some e →
        embeddingBagSum m.embeddings (List.replicate k t) =
          some (e.map (fun a => (k : ℝ) * a)) := by
  have hmain : embeddingBagSum m.embeddings l₁ = embeddingBagSum m.embeddings l₂ := by
    by_cases hv : ∀ t ∈ l₁, t < m.embeddings.length
    · have hv2 : ∀ t ∈ l₂, t < m.embeddings.length :=
        fun t ht => hv t (hperm.mem_iff.mpr ht)
      rw [embeddingBagSum, embeddingBagSum,
        embedSeq_eq_some_of_valid _ _ hv, embedSeq_eq_some_of_valid _ _ hv2]
      simp only [Option.map_some']
      exact congrArg some (vecSumList_perm _ _
        (hperm.map (fun t => m.embeddings.getD t [])))
    · push_neg at hv
      obtain ⟨t, ht, hge⟩ := hv
      rw [embeddingBagSum, embeddingBagSum,
        embedSeq_eq_none_of_invalid _ _ t ht hge,
        embedSeq_eq_none_of_invalid _ _ t (hperm.mem_iff.mp ht) hge]
  refine ⟨hmain, ?_, ?_⟩
  · simp only [InstructionEncoder.forward, embeddingBagBatch, hmain]
  · intro t e k hget
    have he : e.length = 128 := hE e (mem_of_get?_eq_some _ _ _ hget)
    rw [embeddingBagSum, embedSeq_replicate _ _ _ hget, Option.map_some']
    exact congrArg _ (vecSumList_replicate e he k)

/-- Witness for C6: over the concrete table `E0`, the bags `[0, 1]` and
`[1, 0]` have the same sum. -/
theorem instructionEncoder_bag_of_words_witness :
    embeddingBagSum enc0.embeddings [0, 1] = embeddingBagSum enc0.embeddings [1, 0] :=
  (instructionEncoder_bag_of_words enc0
    (by simp [enc0, E0]) [0, 1] [1, 0] (by decide)).1

/-- C7: for every batch size and every instruction length (including empty
rows), `InstructionEncoder.forward` with in-vocabulary token ids returns a
tensor of shape `(B, 128)` without failing, and an empty instruction row
yields the zero vector. -/
theorem instructionEncoder_forward_total (m : InstructionEncoder)
    (instruction : List (List Nat)) (B : Nat) (hB : instruction.length = B)
    (hE : ∀ row ∈ m.embeddings, row.length = 128)
    (hvalid : ∀ row ∈ instruction, ∀ t ∈ row, t < m.embeddings.length) :
    ∃ out, (m.forward instruction).2 = some out ∧ out.length = B ∧
      (∀ r ∈ out, r.length = 128) ∧
      ∀ b, b < B → instruction.getD b [] = [] →
        out.getD b [] = List.replicate 128 0 := by
  refine ⟨instruction.map
    (fun row => vecSumList (row.map (fun t => m.embeddings.getD t []))),
    ?_, by simp [hB], ?_, ?_⟩
  · simp only [InstructionEncoder.forward]
    exact embeddingBagBatch_eq_some _ _ hvalid
  · intro r hr
    simp only [List.mem_map] at hr
    obtain ⟨row, hrow, rfl⟩ := hr
    apply vecSumList_length
    intro v hv
    simp only [List.mem_map] at hv
    obtain ⟨t, htr, rfl⟩ := hv
    exact hE _ (getD_mem_of_lt _ _ (hvalid row hrow t htr) _)
  · intro b hb hempty
    rw [getD_map_of_lt _ _ b (by omega) [] [], hempty]
    rfl

/-- Witness for C7 at the concrete encoder `enc0` and the batch containing
one empty instruction. -/
theorem instructionEncoder_forward_total_witness :
    ∃ out, (enc0.forward [[]]).2 = some out ∧ out.length = 1 ∧
      (∀ r ∈ out, r.length = 128) ∧
      ∀ b, b < 1 → ([[]] : List (List Nat)).getD b [] = [] →
        out.getD b [] = List.replicate 128 0 :=
  instructionEncoder_forward_total enc0 [[]] 1 rfl
    (by simp [enc0, E0]) (by simp)

/-- C3: for a summary-vector batch of shape `(B, 256)`, every policy head
(`SwitchPolicy`, both heads of `InstructionPolicy`, `AugmentedPolicy`)
produces per-row probability vectors: no negative entries and sum `1` along
the last axis; `InstructionPolicy` returns two separately normalized
distributions of shapes `(B, num_instructions)` and `(B, num_objects)`,
each from its own linear projection, not a joint distribution. -/
theorem policy_heads_output_distributions (sp : SwitchPolicy)
    (ip : InstructionPolicy) (ap : AugmentedPolicy) (x : List (List ℝ))
    (_hx : ∀ r ∈ x, r.length = 256)
    (hsW : sp.linW.length = 2) (hsb : sp.linb.length = 2)
    (hiW : ip.instructionW.length = ip.num_instructions)
    (hib : ip.instructionb.length = ip.num_instructions)
    (hoW : ip.objectW.length = ip.num_objects)
    (hob : ip.objectb.length = ip.num_objects)
    (hni : 1 ≤ ip.num_instructions) (hno : 1 ≤ ip.num_objects)
    (haW : ap.linW.length = ap.num_actions)
    (hab : ap.linb.length = ap.num_actions) (hna : 1 ≤ ap.num_actions) :
    (∀ row ∈ sp.forward x, row.length = 2 ∧ row.sum = 1 ∧ ∀ v ∈ row, 0 ≤ v) ∧
      (∀ row ∈ (ip.forward x).1,
        row.length = ip.num_instructions ∧ row.sum = 1 ∧ ∀ v ∈ row, 0 ≤ v) ∧
      (∀ row ∈ (ip.forward x).2,
        row.length = ip.num_objects ∧ row.sum = 1 ∧ ∀ v ∈ row, 0 ≤ v) ∧
      (∀ row ∈ ap.forward x,
        row.length = ap.num_actions ∧ row.sum = 1 ∧ ∀ v ∈ row, 0 ≤ v) ∧
      (ip.forward x).1.length = x.length ∧
      (ip.forward x).2.length = x.length ∧
      (ip.forward x).1 =
        x.map (fun r => softmax (linearF ip.instructionW ip.instructionb r)) ∧
      (ip.forward x).2 =
        x.map (fun r => softmax (linearF ip.objectW ip.objectb r)) := by
  refine ⟨softmax_head_props _ _ _ _ hsW hsb (by omega),
    softmax_head_props _ _ _ _ hiW hib hni,
    softmax_head_props _ _ _ _ hoW hob hno,
    softmax_head_props _ _ _ _ haW hab hna,
    ?_, ?_, rfl, rfl⟩ <;> simp [InstructionPolicy.forward]

set_option maxRecDepth 8000 in
/-- Witness for C3: on the concrete heads `sp0`, `ip0`, `ap0` and batch
`x0`, the switch row sums to `1` and the first instruction-policy head has
one row per batch element. -/
theorem policy_heads_output_distributions_witness :
    (softmax (linearF sp0.linW sp0.linb (List.replicate 256 0))).sum = 1 ∧
      (ip0.forward x0).1.length = x0.length := by
  have h := policy_heads_output_distributions sp0 ip0 ap0 x0
    (by simp [x0]) (by simp [sp0]) (by simp [sp0]) (by simp [ip0])
    (by simp [ip0]) (by simp [ip0]) (by simp [ip0]) (by simp [ip0])
    (by simp [ip0]) (by simp [ap0]) (by simp [ap0]) (by simp [ap0])
  exact ⟨(h.1 _ (List.mem_map_of_mem _ (List.mem_singleton_self _))).2.1,
    h.2.2.2.2.1⟩

/-- C4: `Fusion.forward` on visual features of shape `(B, T, 256)` and
instruction features of shape `(B, 128)` returns shape `(B, T, 384)`; for
every batch element `b` and timestep `t`, the first 256 output features
equal the visual features at `(b, t)` exactly and the last 128 equal the
instruction features of `b` exactly.  (`Fusion` takes no parameters: its
Lean embedding is a plain function of the two inputs alone.) -/
theorem fusion_forward_concat (visual : List (List (List ℝ)))
    (instruction : List (List ℝ)) (B T : Nat)
    (hvB : visual.length = B) (hiB : instruction.length = B)
    (hvs : ∀ s ∈ visual, s.length = T ∧ ∀ v ∈ s, v.length = 256)
    (hir : ∀ r ∈ instruction, r.length = 128) :
    (Fusion.forward visual instruction).length = B ∧
      (∀ s ∈ Fusion.forward visual instruction,
        s.length = T ∧ ∀ v ∈ s, v.length = 384) ∧
      ∀ b, b < B → ∀ t, t < T →
        (((Fusion.forward visual instruction).getD b []).getD t []).take 256 =
            (visual.getD b []).getD t [] ∧
          (((Fusion.forward visual instruction).getD b []).getD t []).drop 256 =
            instruction.getD b [] := by
  refine ⟨by simp [Fusion.forward, hvB, hiB], ?_, ?_⟩
  · intro s hs
    simp only [Fusion.forward, List.mem_map] at hs
    obtain ⟨bi, hbi, rfl⟩ := hs
    have hmem := List.of_mem_zip hbi
    refine ⟨by simpa using (hvs _ hmem.1).1, ?_⟩
    intro v hv
    simp only [List.mem_map] at hv
    obtain ⟨w, hw, rfl⟩ := hv
    have h1 : w.length = 256 := (hvs _ hmem.1).2 w hw
    have h2 : bi.2.length = 128 := hir _ hmem.2
    simp [h1, h2]
  · intro b hb t ht
    have hzb : b < (visual.zip instruction).length := by
      simpa [hvB, hiB] using hb
    have h1 : (Fusion.forward visual instruction).getD b [] =
        ((visual.zip instruction).getD b ([], [])).1.map
          (fun v => v ++ ((visual.zip instruction).getD b ([], [])).2) := by
      simpa [Fusion.forward] using
        getD_map_of_lt (fun bi => bi.1.map (fun v => v ++ bi.2))
          (visual.zip instruction) b hzb ([], []) []
    rw [h1, getD_zip_of_lt visual instruction b (by omega) (by omega) [] []]
    have hvmem : visual.getD b [] ∈ visual :=
      getD_mem_of_lt visual b (by omega) []
    have hvT : (visual.getD b []).length = T := (hvs _ hvmem).1
    have h2 : ((visual.getD b []).map
        (fun v => v ++ instruction.getD b [])).getD t [] =
        (visual.getD b []).getD t [] ++ instruction.getD b [] :=
      getD_map_of_lt _ _ t (by omega) [] []
    have hvrow : (visual.getD b []).getD t [] ∈ visual.getD b [] :=
      getD_mem_of_lt _ t (by omega) []
    have hv256 : ((visual.getD b []).getD t []).length = 256 :=
      (hvs _ hvmem).2 _ hvrow
    rw [h2]
    exact ⟨List.take_left' hv256, List.drop_left' hv256⟩

set_option maxRecDepth 8000 in
/-- Witness for C4 at the concrete shapes `B = T = 1`. -/
theorem fusion_forward_concat_witness :
    (Fusion.forward visual0 instr0).length = 1 ∧
      (∀ s ∈ Fusion.forward visual0 instr0,
        s.length = 1 ∧ ∀ v ∈ s, v.length = 384) ∧
      ∀ b, b < 1 → ∀ t, t < 1 →
        (((Fusion.forward visual0 instr0).getD b []).getD t []).take 256 =
            (visual0.getD b []).getD t [] ∧
          (((Fusion.forward visual0 instr0).getD b []).getD t []).drop 256 =
            instr0.getD b [] :=
  fusion_forward_concat visual0 instr0 1 1 (by simp [visual0])
    (by simp [instr0]) (by simp [visual0]) (by simp [instr0])

/-- C8: invoking `InstructionEncoder.forward` on an encoder constructed with
the recurrent mode selected (`bow = false`) surfaces the observable
"not yet implemented" warning to the caller: the warning list of the call is
exactly `[rnnWarning]`. -/
theorem instructionEncoder_rnn_mode_warns (m : InstructionEncoder)
    (instruction : List (List Nat)) (h : m.bow = false) :
    (m.forward instruction).1 = [rnnWarning] := by
  simp [InstructionEncoder.forward, h]

/-- Witness for C8: the concrete recurrent-mode encoder `encR` warns. -/
theorem instructionEncoder_rnn_mode_warns_witness :
    encR.bow = false ∧ (encR.forward [[0]]).1 = [rnnWarning] :=
  ⟨rfl, instructionEncoder_rnn_mode_warns encR [[0]] rfl⟩

/-- C9: `TimeEncoder.forward` is deterministic and carries no state across
calls: a call leaves the module unchanged, a second invocation on an
identical input returns an identical output, and the output is the final
hidden state of the LSTM run started from the zero state `zeroState`
rebuilt inside every call. -/
theorem timeEncoder_deterministic (m : TimeEncoder)
    (fused fused2 : List (List (List ℝ))) (h : fused2 = fused) :
    (m.call fused).2 = m ∧
      ((m.call fused).2.call fused2).1 = (m.call fused).1 ∧
      m.forward fused = fused.map (fun s => (lstmRun m.lstm s zeroState).1) := by
  subst h
  exact ⟨rfl, rfl, rfl⟩

/-- Witness for C9 at the concrete module `te0` and input `fused0`. -/
theorem timeEncoder_deterministic_witness :
    (te0.call fused0).2 = te0 ∧
      ((te0.call fused0).2.call fused0).1 = (te0.call fused0).1 ∧
      te0.forward fused0 = fused0.map (fun s => (lstmRun te0.lstm s zeroState).1) :=
  timeEncoder_deterministic te0 fused0 fused0 rfl

/-- C10: the numeric output of `InstructionEncoder.forward` does not depend
on the `bow` flag: two encoders with identical embedding tables, one built
with `bow = true` and one with `bow = false`, return the same result on
every instruction (the flag only controls the emitted warning). -/
theorem instructionEncoder_output_independent_of_bow (V : Nat)
    (E : List (List ℝ)) (instruction : List (List Nat)) :
    ((InstructionEncoder.mk V true E).forward instruction).2 =
      ((InstructionEncoder.mk V false E).forward instruction).2 := rfl

/-! ### VisualEncoder lemmas -/

theorem length_reluVec (x : List ℝ) : (reluVec x).length = x.length := by
  simp [reluVec]

theorem encodeFrame_length (p : VEParams) (hW : p.linW.length = 256)
    (hb : p.linb.length = 256) (d : List ℝ) :
    (encodeFrame p d).length = 256 := by
  simp [encodeFrame, length_reluVec, length_linearF, hW, hb]

/-- The concrete zero parameters `pVE0` are well formed. -/
theorem pVE0_WF : pVE0.WF := by
  refine ⟨List.length_replicate _ _, ?_, List.length_replicate _ _,
    List.length_replicate _ _, ?_, List.length_replicate _ _,
    List.length_replicate _ _, ?_, List.length_replicate _ _,
    List.length_replicate _ _, ?_, List.length_replicate _ _⟩ <;>
    intro oc hoc <;> rw [List.eq_of_mem_replicate hoc]
  · exact ⟨List.length_replicate _ _, fun ic hic => by
      rw [List.eq_of_mem_replicate hic]
      exact ⟨List.length_replicate _ _, fun r hr => by
        rw [List.eq_of_mem_replicate hr]
        exact List.length_replicate _ _⟩⟩
  · exact ⟨List.length_replicate _ _, fun ic hic => by
      rw [List.eq_of_mem_replicate hic]
      exact ⟨List.length_replicate _ _, fun r hr => by
        rw [List.eq_of_mem_replicate hr]
        exact List.length_replicate _ _⟩⟩
  · exact ⟨List.length_replicate _ _, fun ic hic => by
      rw [List.eq_of_mem_replicate hic]
      exact ⟨List.length_replicate _ _, fun r hr => by
        rw [List.eq_of_mem_replicate hr]
        exact List.length_replicate _ _⟩⟩
  · exact List.length_replicate _ _

/-- C5: `VisualEncoder.forward` on a well-formed image tensor of shape
`(B, T, 3, 84, 84)` with `B, T ≥ 1` succeeds and returns a tensor of shape
`(B, T, 256)`; its data is the concatenation of `encodeFrame` applied to
each frame's own 21168 elements separately, so every frame is encoded
independently and no state is carried between timesteps. -/
theorem visualEncoder_forward_shape (p : VEParams) (img : Tensor) (B T : Nat)
    (hp : p.WF) (hshape : img.shape = [B, T, 3, 84, 84])
    (hdata : img.data.length = img.shape.prod)
    (_hB1 : 1 ≤ B) (_hT1 : 1 ≤ T) :
    ∃ out, VisualEncoder.forward p img = some out ∧
      out.shape = [B, T, 256] ∧ out.data.length = B * T * 256 ∧
      out.data = ((List.range (B * T)).map (fun f =>
        encodeFrame p ((img.data.drop (f * (3 * 84 * 84))).take (3 * 84 * 84)))).flatten := by
  obtain ⟨-, -, -, -, -, -, -, -, -, hlW, -, hlb⟩ := hp
  have hlen : img.data.length = B * T * (3 * 84 * 84) := by
    rw [hdata, hshape]
    simp [List.prod_cons]
    ring
  have hfwd : VisualEncoder.forward p img =
      some ⟨[B, T, 256],
        ((List.range (B * T)).map (fun f =>
          encodeFrame p ((img.data.drop (f * (3 * 84 * 84))).take (3 * 84 * 84)))).flatten⟩ := by
    simp only [VisualEncoder.forward, hshape]
    rw [if_pos hlen]
  refine ⟨_, hfwd, rfl, ?_, rfl⟩
  rw [List.length_flatten, List.map_map]
  have hrep : (List.range (B * T)).map (List.length ∘ (fun f =>
      encodeFrame p ((img.data.drop (f * (3 * 84 * 84))).take (3 * 84 * 84)))) =
      List.replicate (B * T) 256 := by
    apply List.eq_replicate_iff.mpr
    refine ⟨by simp, ?_⟩
    intro b hb
    simp only [List.mem_map, Function.comp] at hb
    obtain ⟨f, -, rfl⟩ := hb
    exact encodeFrame_length p hlW hlb _
  rw [hrep, List.sum_replicate, smul_eq_mul]

/-- Witness for C5 at the concrete parameters `pVE0` and the concrete image
`img0` of shape `(1, 1, 3, 84, 84)`. -/
theorem visualEncoder_forward_shape_witness :
    ∃ out, VisualEncoder.forward pVE0 img0 = some out ∧
      out.shape = [1, 1, 256] ∧ out.data.length = 1 * 1 * 256 ∧
      out.data = ((List.range (1 * 1)).map (fun f =>
        encodeFrame pVE0 ((img0.data.drop (f * (3 * 84 * 84))).take (3 * 84 * 84)))).flatten :=
  visualEncoder_forward_shape pVE0 img0 1 1 pVE0_WF rfl
    (by
      rw [show img0.data = List.replicate (3 * 84 * 84) 0 from rfl,
        List.length_replicate]
      norm_num [img0])
    (by omega) (by omega)

/-- C2 (amended): `VisualEncoder.forward` fails with a shape-mismatch error
exactly when the input has fewer than two dimensions or its total element
count differs from `B * T * 3*84*84` (with `B`, `T` its two leading
dimensions); an input whose element count matches is `view`ed into
`(3, 84, 84)` frames and encoded even when its per-frame dimensions differ
from `(3, 84, 84)`. -/
theorem visualEncoder_forward_isSome_iff (p : VEParams) (img : Tensor) :
    (VisualEncoder.forward p img).isSome = true ↔
      2 ≤ img.shape.length ∧
        img.data.length =
          img.shape.headD 0 * img.shape.tail.headD 0 * (3 * 84 * 84) := by
  cases himg : img.shape with
  | nil => simp [VisualEncoder.forward, himg]
  | cons B rest =>
    cases rest with
    | nil => simp [VisualEncoder.forward, himg]
    | cons T rest2 =>
      by_cases h : img.data.length = B * T * (3 * 84 * 84)
      · simp [VisualEncoder.forward, himg, h]
      · simp [VisualEncoder.forward, himg, h]

/-- Counterexample to C2 as stated: the tensor `imgBad` has per-frame
dimensions `(12, 42, 42)` — wrong channel count and wrong spatial
resolution — yet `VisualEncoder.forward` does not fail on it: its per-frame
element count `12*42*42 = 21168` matches `3*84*84`, so the `view` silently
regroups it into `(3, 84, 84)` frames. -/
theorem visualEncoder_silent_reshape_counterexample :
    imgBad.shape = [1, 1, 12, 42, 42] ∧
      imgBad.data.length = imgBad.shape.prod ∧
      (VisualEncoder.forward pVE0 imgBad).isSome = true := by
  have hlen : imgBad.data.length = 1 * 1 * (3 * 84 * 84) := by
    rw [show imgBad.data = List.replicate (12 * 42 * 42) 0 from rfl,
      List.length_replicate]
  refine ⟨rfl, ?_, ?_⟩
  · rw [show imgBad.data = List.replicate (12 * 42 * 42) 0 from rfl,
      List.length_replicate]
    norm_num [imgBad]
  · simp only [VisualEncoder.forward,
      show imgBad.shape = 1 :: 1 :: [12, 42, 42] from rfl]
    rw [if_pos hlen]
    rfl

end HSA
